import Mathlib

/-!
Shallow embedding of the Cbc heuristic subsystem declared in
src/Cbc/src/CbcHeuristic.hpp: the branch-history record/list
(CbcHeuristicNode, CbcHeuristicNodeList), the heuristic base class
(CbcHeuristic) with its small branch-and-bound primitive, and the three
concrete heuristics CbcRounding, CbcHeuristicPartial and CbcSerendipity.

The repository ships only the header: the inline bodies (the node-list
appends, the default validate, the accessors) are embedded directly from
the source; the out-of-line bodies (farFrom, smallBranchAndBound and the
solution methods) are modelled from the specification, as marked on each
definition.  Machine doubles are modelled as exact rationals and C++
pointers as Option values (none stands for NULL).
-/

/-- Branch-history record of CbcHeuristic.hpp: the branching decisions
(`numObjects_`, `brObj_` with the bound each imposed) taken to reach the
node where a heuristic was invoked.  Each entry is a pair of the branching
object's identifier and the bound value it imposed; an identifier may be
listed multiple times (re-branched variable). -/
structure CbcHeuristicNode where
  brObj : List (Nat × ℚ)
deriving DecidableEq, Repr

/-- The number of branching decisions (`numObjects_`); the source keeps the
count alongside the parallel arrays. -/
def CbcHeuristicNode.numObjects (n : CbcHeuristicNode) : Nat :=
  n.brObj.length

/-- Identifiers of the branching objects of a record. -/
def CbcHeuristicNode.objects (n : CbcHeuristicNode) : List Nat :=
  n.brObj.map Prod.fst

/-- Modelled from the spec: the exact distance metric of `farFrom` is left
to the implementation (the body is not in the repository); this divergence
measure counts the (object, bound) decisions in which two records differ,
so identical records are at distance zero and records over disjoint object
sets are at maximal distance. -/
def CbcHeuristicNode.dist (a b : CbcHeuristicNode) : Nat :=
  (a.brObj.filter (fun p => decide (p ∉ b.brObj))).length +
    (b.brObj.filter (fun p => decide (p ∉ a.brObj))).length

/-- Branch-history list of CbcHeuristic.hpp: `std::vector<CbcHeuristicNode*>
nodes_`.  An entry is an owned pointer, so each element is an Option value
(none stands for a NULL pointer stored in the vector). -/
structure CbcHeuristicNodeList where
  nodes_ : List (Option CbcHeuristicNode)
deriving DecidableEq, Repr

/-- Embedded from `void append(CbcHeuristicNode*& node)` of the source:
`nodes_.push_back(node); node = NULL;`.  The result is the updated list
together with the caller's handle after the call. -/
def CbcHeuristicNodeList.appendNode (l : CbcHeuristicNodeList)
    (node : Option CbcHeuristicNode) :
    CbcHeuristicNodeList × Option CbcHeuristicNode :=
  (⟨l.nodes_ ++ [node]⟩, none)

/-- Embedded from `void append(CbcHeuristicNodeList& nodes)` of the source:
`nodes_.insert(nodes_.end(), nodes.begin(), nodes.end()); nodes.clear();`.
The result is the updated list together with the emptied source list. -/
def CbcHeuristicNodeList.appendNodes (l m : CbcHeuristicNodeList) :
    CbcHeuristicNodeList × CbcHeuristicNodeList :=
  (⟨l.nodes_ ++ m.nodes_⟩, ⟨[]⟩)

/-- Repeated single-record appends, each transferring one caller handle
into the list. -/
def CbcHeuristicNodeList.appendMany (l : CbcHeuristicNodeList)
    (hs : List (Option CbcHeuristicNode)) : CbcHeuristicNodeList :=
  hs.foldl (fun acc h => (acc.appendNode h).1) l

/-- The list holds no NULL entry: every stored pointer is non-null. -/
def CbcHeuristicNodeList.noNullEntry (l : CbcHeuristicNodeList) : Bool :=
  l.nodes_.all Option.isSome

/-- Modelled from the spec: the copy constructor is only declared in the
header; the spec's ownership model (deep copy, no aliasing) makes the copy
carry the same record values. -/
def CbcHeuristicNodeList.copy (l : CbcHeuristicNodeList) :
    CbcHeuristicNodeList :=
  ⟨l.nodes_⟩

/-- Modelled from the spec: `operator=` is only declared in the header; the
assigned-to list afterwards carries the right-hand side's record values. -/
def CbcHeuristicNodeList.assign (_l r : CbcHeuristicNodeList) :
    CbcHeuristicNodeList :=
  ⟨r.nodes_⟩

/-- Modelled from the spec: `bool farFrom(const CbcHeuristicNode& node)` has
no body in the repository; per the spec it reports whether the candidate
record diverges from every stored record, here: every stored record is at
distance at least one (NULL entries, excluded by the list invariant,
contribute nothing). -/
def CbcHeuristicNodeList.farFrom (l : CbcHeuristicNodeList)
    (n : CbcHeuristicNode) : Bool :=
  l.nodes_.all (fun e =>
    match e with
    | none => true
    | some m => decide (1 ≤ CbcHeuristicNode.dist m n))

/-- The candidate record shares no branching object with any record stored
in the list. -/
def CbcHeuristicNodeList.disjointFromAll (l : CbcHeuristicNodeList)
    (n : CbcHeuristicNode) : Bool :=
  l.nodes_.all (fun e =>
    match e with
    | none => true
    | some m => decide (∀ o ∈ m.objects, o ∉ n.objects))

/-- Configuration state of the heuristic base class, one field per data
member of CbcHeuristic (lines 173-194 of the header); the opaque model
back-pointer is omitted and the thread random generator is carried as its
seed. -/
structure CbcHeuristicState where
  when_ : Int
  numberNodes_ : Nat
  feasibilityPumpOptions_ : Int
  fractionSmall_ : ℚ
  heuristicName_ : String
  howOften_ : Int
  decayFactor_ : ℚ
  randomSeed_ : Nat
deriving DecidableEq, Repr

/-- Embedded from the source's inline default `virtual void validate() {}`:
the base-class validate has an empty body and returns the state as is. -/
def CbcHeuristic.validate (s : CbcHeuristicState) : CbcHeuristicState :=
  s

/-- Embedded from the source's inline `void setWhen(int value)`. -/
def CbcHeuristic.setWhen (s : CbcHeuristicState) (value : Int) :
    CbcHeuristicState :=
  { s with when_ := value }

/-- A row of the constraint matrix: sparse coefficients (column index,
coefficient) with the row's lower and upper bound. -/
structure MipRow where
  coeffs : List (Nat × ℚ)
  lower : ℚ
  upper : ℚ
deriving DecidableEq, Repr

/-- The host model's data a heuristic reads: column count, objective
coefficients, constraint rows, column bounds and integrality flags. -/
structure Mip where
  numCols : Nat
  obj : List ℚ
  rows : List MipRow
  colLower : List ℚ
  colUpper : List ℚ
  isInteger : List Bool
deriving Repr

/-- Activity of one row at a point. -/
def MipRow.activity (r : MipRow) (x : List ℚ) : ℚ :=
  (r.coeffs.map (fun c => c.2 * x.getD c.1 0)).sum

/-- The row's bounds hold at the point. -/
def MipRow.satisfiedB (r : MipRow) (x : List ℚ) : Bool :=
  decide (r.lower ≤ r.activity x) && decide (r.activity x ≤ r.upper)

/-- Every constraint row of the problem holds at the point. -/
def Mip.rowsOkB (p : Mip) (x : List ℚ) : Bool :=
  p.rows.all (fun r => r.satisfiedB x)

/-- A rational value is integral. -/
def ratIsInt (v : ℚ) : Bool :=
  decide (v = ((⌊v⌋ : ℤ) : ℚ))

/-- Every integer-constrained column holds an integral value. -/
def Mip.integralOkB (p : Mip) (x : List ℚ) : Bool :=
  (List.range p.numCols).all (fun j =>
    !(p.isInteger.getD j false) || ratIsInt (x.getD j 0))

/-- The point is a feasible integer solution: every row holds and every
integer column is integral. -/
def Mip.feasibleB (p : Mip) (x : List ℚ) : Bool :=
  p.rowsOkB x && p.integralOkB x

/-- Objective value of a point. -/
def Mip.objValue (p : Mip) (x : List ℚ) : ℚ :=
  ((List.range p.numCols).map (fun j => p.obj.getD j 0 * x.getD j 0)).sum

/-- Modelled from the spec: the MIP-capable solver handed to the small
branch-and-bound primitive is an external collaborator (interface only);
its bounded tree search is carried as the list of tree nodes in exploration
order, a node optionally yielding an integer-feasible candidate point with
its objective value. -/
structure SubMipSolver where
  nodes : List (Option (List ℚ × ℚ))

/-- Modelled from the spec: the bounded tree walk of `smallBranchAndBound`
(its body is not in the repository).  One budget unit is spent per node;
the walk keeps the best candidate strictly better than the cutoff (a later
candidate must beat the incumbent).  Returns whether the whole tree was
exhausted within budget, and the best candidate kept. -/
def runBB (cutoff : ℚ) :
    List (Option (List ℚ × ℚ)) → Nat → Option (List ℚ × ℚ) →
      Bool × Option (List ℚ × ℚ)
  | [], _, best => (true, best)
  | _ :: _, 0, best => (false, best)
  | node :: rest, b + 1, best =>
    match node with
    | none => runBB cutoff rest b best
    | some xv =>
      match best with
      | none => runBB cutoff rest b (if xv.2 < cutoff then some xv else none)
      | some best0 =>
        runBB cutoff rest b (if xv.2 < best0.2 then some xv else some best0)

/-- Modelled from the spec: `int smallBranchAndBound(...) const` has no body
in the repository.  Per the header's contract it returns 0 not finished -
no solution, 1 not finished - solution, 2 finished - no solution, 3
finished - solution; on a found solution the best point and its value are
written to the output parameters, otherwise they are left as passed in.
The const heuristic state is threaded through unchanged. -/
def CbcHeuristic.smallBranchAndBound (h : CbcHeuristicState)
    (solver : SubMipSolver) (numberNodes : Nat) (newSolution : List ℚ)
    (newSolutionValue : ℚ) (cutoff : ℚ) (_label : String) :
    CbcHeuristicState × Int × List ℚ × ℚ :=
  match runBB cutoff solver.nodes numberNodes none with
  | (finished, some xv) => (h, if finished then 3 else 1, xv.1, xv.2)
  | (finished, none) =>
    (h, if finished then 2 else 0, newSolution, newSolutionValue)

/-- Nearest-integer rounding, round half up. -/
def rndNearest (v : ℚ) : ℤ :=
  ⌊v + 1 / 2⌋

/-- State of CbcRounding beyond the base class: the three per-variable lock
vectors `down_`, `up_`, `equal_` of the header (a set bit marks the
direction locally safe) and the heuristic's private random stream, carried
as the sequence of thresholds it draws (deterministic given the seed). -/
structure CbcRoundingState where
  down : List Bool
  up : List Bool
  equal : List Bool
  seed_ : Int
  randStream : Nat → ℚ

/-- Modelled from the spec: per-variable rounding step of CbcRounding (the
solution body is not in the repository).  An already integral value is
kept; else the equality lock snaps to nearest, a single safe direction
rounds that way, and the ambiguous case compares the fractional part
against a threshold drawn from the private random stream. -/
def roundDir (down up equal : Bool) (rand : ℚ) (v : ℚ) : ℚ :=
  if ratIsInt v then v
  else if equal then ((rndNearest v : ℤ) : ℚ)
  else if up && !down then ((⌈v⌉ : ℤ) : ℚ)
  else if down && !up then ((⌊v⌋ : ℤ) : ℚ)
  else if rand < v - ((⌊v⌋ : ℤ) : ℚ) then ((⌈v⌉ : ℤ) : ℚ)
  else ((⌊v⌋ : ℤ) : ℚ)

/-- Modelled from the spec: the full rounding pass of CbcRounding.solution
over the relaxation solution, applied to every integer-constrained column;
continuous columns keep their relaxation value. -/
def CbcRounding.doRound (st : CbcRoundingState) (p : Mip) (xrel : List ℚ) :
    List ℚ :=
  (List.range p.numCols).map (fun j =>
    if p.isInteger.getD j false then
      roundDir (st.down.getD j false) (st.up.getD j false)
        (st.equal.getD j false) (st.randStream j) (xrel.getD j 0)
    else xrel.getD j 0)

/-- Modelled from the spec: `int CbcRounding::solution(double&, double*)`
has no body in the repository.  The rounded point is re-validated against
the full constraint set and its objective compared with the incoming
bound; only then is IMPROVED (1) reported with the outputs written,
otherwise NO_SOLUTION (0) leaves them untouched. -/
def CbcRounding.solution (st : CbcRoundingState) (p : Mip) (xrel : List ℚ)
    (objectiveValue : ℚ) (newSolution : List ℚ) : Int × ℚ × List ℚ :=
  let x := CbcRounding.doRound st p xrel
  if p.rowsOkB x && decide (p.objValue x < objectiveValue) then
    (1, p.objValue x, x)
  else (0, objectiveValue, newSolution)

/-- Modelled from the spec: the fixing pass of CbcHeuristicPartial (the
solution body is not in the repository).  Every integer column whose
absolute branching priority is at most fixPriority is fixed (both bounds)
to its relaxation value rounded to the nearest integer; every other column
keeps its bounds.  Returns the restricted column bounds. -/
def fixVariables (fixPriority : Int) (priorities : List Int)
    (isInteger : List Bool) (xrel lower upper : List ℚ) (n : Nat) :
    List ℚ × List ℚ :=
  ((List.range n).map (fun j =>
      if isInteger.getD j false && decide (|priorities.getD j 0| ≤ fixPriority)
      then ((rndNearest (xrel.getD j 0) : ℤ) : ℚ)
      else lower.getD j 0),
    (List.range n).map (fun j =>
      if isInteger.getD j false && decide (|priorities.getD j 0| ≤ fixPriority)
      then ((rndNearest (xrel.getD j 0) : ℤ) : ℚ)
      else upper.getD j 0))

/-- Modelled from the spec: `int CbcHeuristicPartial::solution` has no body
in the repository.  It fixes the low-priority integer columns, hands the
restricted problem to the small branch-and-bound primitive (the external
solver is obtained for the restricted bounds), and reports IMPROVED
exactly when that primitive found a solution, writing the point and its
value out; otherwise the outputs are left untouched. -/
def CbcHeuristicPartial.solution (h : CbcHeuristicState) (fixPriority : Int)
    (p : Mip) (priorities : List Int) (xrel : List ℚ)
    (mkSolver : List ℚ → List ℚ → SubMipSolver) (objectiveValue : ℚ)
    (newSolution : List ℚ) : Int × ℚ × List ℚ :=
  let bnds := fixVariables fixPriority priorities p.isInteger xrel
    p.colLower p.colUpper p.numCols
  let r := CbcHeuristic.smallBranchAndBound h (mkSolver bnds.1 bnds.2)
    h.numberNodes_ newSolution objectiveValue objectiveValue "CbcHeuristicPartial"
  if r.2.1 = 1 ∨ r.2.1 = 3 then (1, r.2.2.2, r.2.2.1)
  else (0, objectiveValue, newSolution)

/-- Host-model state the serendipity heuristic inspects: the relaxation
solver's side-channel signal that its own embedded search already found a
feasible point (the point with its objective value), if any. -/
structure CbcModelState where
  sideChannel : Option (List ℚ × ℚ)

/-- Modelled from the spec: `int CbcSerendipity::solution` has no body in
the repository.  Per the spec (and the class comment: just picks up any
good solution found by the solver) it performs no search of its own: if
the solver exposes an already-found feasible point whose objective beats
the incoming bound it is adopted verbatim, else nothing is touched. -/
def CbcSerendipity.solution (_st : CbcHeuristicState) (m : CbcModelState)
    (objectiveValue : ℚ) (newSolution : List ℚ) : Int × ℚ × List ℚ :=
  match m.sideChannel with
  | none => (0, objectiveValue, newSolution)
  | some xv =>
    if xv.2 < objectiveValue then (1, xv.2, xv.1)
    else (0, objectiveValue, newSolution)

/-- Result contract of the pre-cut entry point `solution(objectiveValue,
newSolution)` as the header documents it: the code is 0 or 1; 0 leaves the
objective bound and the solution buffer untouched; 1 has written a
feasible integer solution into the buffer whose objective value is the
updated bound, strictly better than the bound passed in. -/
def meetsSolutionContract (p : Mip) (objectiveValue : ℚ)
    (newSolution : List ℚ) (r : Int × ℚ × List ℚ) : Prop :=
  (r.1 = 0 ∨ r.1 = 1) ∧
    (r.1 = 0 → r.2.1 = objectiveValue ∧ r.2.2 = newSolution) ∧
    (r.1 = 1 → p.feasibleB r.2.2 = true ∧ r.2.1 = p.objValue r.2.2 ∧
      r.2.1 < objectiveValue)

/-- Concrete heuristic configuration used to instantiate the theorems on
sample inputs. -/
def hW : CbcHeuristicState :=
  ⟨3, 200, -1, 1, "heuristic", 1, 1, 0⟩

/-- Concrete rounding state used to instantiate the theorems on sample
inputs: one column with its equality lock set. -/
def stW : CbcRoundingState :=
  ⟨[false], [false], [true], 0, fun _ => 0⟩

/-- Concrete one-column problem used to instantiate the theorems on sample
inputs: minimise x subject to 0 <= x <= 1, x integer. -/
def pW : Mip :=
  ⟨1, [1], [⟨[(0, 1)], 0, 1⟩], [0], [1], [true]⟩

/-- Concrete restricted-problem solver used to instantiate the theorems on
sample inputs: one tree node yielding the point x = 0 of value 0. -/
def mkW : List ℚ → List ℚ → SubMipSolver :=
  fun _ _ => ⟨[some ([0], 0)]⟩

/-- Concrete host-model state used to instantiate the theorems on sample
inputs: the solver exposes the already-found point x = 0 of value 0. -/
def mSideW : CbcModelState :=
  ⟨some ([0], 0)⟩

theorem getD_map_range {α : Type} (f : Nat → α) (d : α) {n j : Nat}
    (h : j < n) : ((List.range n).map f).getD j d = f j := by
  rw [List.getD_eq_getElem ((List.range n).map f) d (by simpa using h)]
  simp [List.getElem_map, List.getElem_range]

theorem rndNearest_intCast (m : ℤ) : rndNearest ((m : ℤ) : ℚ) = m := by
  rw [rndNearest, Int.floor_eq_iff]
  constructor <;> norm_num

theorem rndNearest_zero : rndNearest (0 : ℚ) = 0 := by
  simpa using rndNearest_intCast 0

theorem CbcHeuristicNode.dist_self (a : CbcHeuristicNode) : a.dist a = 0 := by
  have hnil : a.brObj.filter (fun p => decide (p ∉ a.brObj)) = [] := by
    rw [List.filter_eq_nil_iff]
    intro p hp
    simp [hp]
  simp [CbcHeuristicNode.dist, hnil]

theorem CbcHeuristicNode.dist_of_disjoint {m n : CbcHeuristicNode}
    (h : ∀ o ∈ m.objects, o ∉ n.objects) : n.brObj.length ≤ m.dist n := by
  have hall : n.brObj.filter (fun p => decide (p ∉ m.brObj)) = n.brObj := by
    rw [List.filter_eq_self]
    intro p hp
    have hobj : p.1 ∈ n.objects := List.mem_map_of_mem Prod.fst hp
    simp only [decide_eq_true_eq]
    intro hmem
    exact h p.1 (List.mem_map_of_mem Prod.fst hmem) hobj
  calc n.brObj.length
      = (n.brObj.filter (fun p => decide (p ∉ m.brObj))).length := by
        rw [hall]
    _ ≤ m.dist n := Nat.le_add_left _ _

/-- C10: the base-class default `validate()` (inline empty body in the
header) is a no-op: it leaves every field of the heuristic state unchanged,
in particular the activation flag `when_` is never forced to 0, so a
heuristic that does not override it is never self-disabled. -/
theorem cbc_c10_validate_default_noop :
    ∀ s : CbcHeuristicState,
      CbcHeuristic.validate s = s ∧
        (CbcHeuristic.validate s).when_ = s.when_ :=
  fun _ => ⟨rfl, rfl⟩

/-- C3: the single-record append makes the appended record the new last
element, keeps all previously stored elements in order, and nulls the
caller's handle (ownership transfer); N appends grow the length by N. -/
theorem cbc_c3_append_transfers_ownership :
    (∀ (l : CbcHeuristicNodeList) (node : Option CbcHeuristicNode),
      (l.appendNode node).1.nodes_ = l.nodes_ ++ [node] ∧
        (l.appendNode node).1.nodes_.length = l.nodes_.length + 1 ∧
        (l.appendNode node).2 = none) ∧
    (∀ (l : CbcHeuristicNodeList) (hs : List (Option CbcHeuristicNode)),
      (l.appendMany hs).nodes_.length = l.nodes_.length + hs.length) := by
  constructor
  · intro l node
    simp [CbcHeuristicNodeList.appendNode]
  · intro l hs
    induction hs generalizing l with
    | nil => simp [CbcHeuristicNodeList.appendMany]
    | cons h t ih =>
      have step : (l.appendMany (h :: t)) =
          ((l.appendNode h).1).appendMany t := rfl
      rw [step, ih]
      simp [CbcHeuristicNodeList.appendNode]
      omega

/-- C4 counterexample: the inline `append` pushes the caller's pointer
unconditionally, so appending a NULL handle to a list satisfying the
invariant leaves the list with a null entry: the invariant is not
preserved by every operation as claimed. -/
theorem cbc_c4_counterexample :
    CbcHeuristicNodeList.noNullEntry ⟨[]⟩ = true ∧
      ((CbcHeuristicNodeList.appendNode ⟨[]⟩ none).1).noNullEntry = false := by
  decide

/-- C4 (amended): the no-null invariant is preserved by construction,
single-record append of a non-null handle, bulk list append of a list
itself satisfying the invariant, copy and assignment. -/
theorem cbc_c4_no_null_invariant :
    ∀ (l m : CbcHeuristicNodeList) (node : Option CbcHeuristicNode),
      (CbcHeuristicNodeList.noNullEntry ⟨[]⟩ = true) ∧
        (l.noNullEntry = true → node ≠ none →
          ((l.appendNode node).1).noNullEntry = true) ∧
        (l.noNullEntry = true → m.noNullEntry = true →
          ((l.appendNodes m).1).noNullEntry = true ∧
            ((l.appendNodes m).2).noNullEntry = true) ∧
        (l.copy.noNullEntry = l.noNullEntry) ∧
        ((CbcHeuristicNodeList.assign l m).noNullEntry = m.noNullEntry) := by
  intro l m node
  refine ⟨by decide, ?_, ?_, rfl, rfl⟩
  · intro hl hnode
    simp only [CbcHeuristicNodeList.noNullEntry,
      CbcHeuristicNodeList.appendNode, List.all_append] at hl ⊢
    simp [hl, Option.isSome_iff_ne_none, hnode]
  · intro hl hm
    constructor
    · simp only [CbcHeuristicNodeList.noNullEntry,
        CbcHeuristicNodeList.appendNodes, List.all_append] at hl hm ⊢
      simp [hl, hm]
    · rfl

/-- C4 witness: appending a non-null record to the empty list preserves the
invariant. -/
theorem cbc_c4_no_null_invariant_witness :
    ((CbcHeuristicNodeList.appendNode ⟨[]⟩ (some ⟨[]⟩)).1).noNullEntry
      = true :=
  (cbc_c4_no_null_invariant ⟨[]⟩ ⟨[]⟩ (some ⟨[]⟩)).2.1 (by decide) (by decide)

/-- C5 counterexample: with a stored identical copy of a record carrying no
branching decision, the candidate shares no branching object with any
stored record, yet farFrom is false (the identical copy is at distance
zero): the two requirements of the claim conflict on empty records, so the
claim as stated fails. -/
theorem cbc_c5_counterexample :
    CbcHeuristicNodeList.disjointFromAll ⟨[some ⟨[]⟩]⟩ ⟨[]⟩ = true ∧
      CbcHeuristicNodeList.farFrom ⟨[some ⟨[]⟩]⟩ ⟨[]⟩ = false := by
  decide

/-- C5 (amended): farFrom is false whenever an identical copy of the
candidate is stored in the list, and true whenever the candidate carries
at least one branching decision and shares no branching object with any
stored record. -/
theorem cbc_c5_farFrom_reflexive_disjoint :
    ∀ (l : CbcHeuristicNodeList) (n : CbcHeuristicNode),
      (some n ∈ l.nodes_ → l.farFrom n = false) ∧
        (n.brObj ≠ [] → l.disjointFromAll n = true → l.farFrom n = true) := by
  intro l n
  constructor
  · intro hmem
    cases hfa : l.farFrom n with
    | false => rfl
    | true =>
      exfalso
      have hat := List.all_eq_true.mp hfa (some n) hmem
      simp [CbcHeuristicNode.dist_self] at hat
  · intro hne hdisj
    apply List.all_eq_true.mpr
    intro e he
    cases e with
    | none => rfl
    | some m =>
      have hd := List.all_eq_true.mp hdisj (some m) he
      simp only [decide_eq_true_eq] at hd ⊢
      have hlen : 1 ≤ n.brObj.length :=
        List.length_pos.mpr hne
      exact le_trans hlen (CbcHeuristicNode.dist_of_disjoint hd)

/-- C5 witness: a stored copy of the candidate makes farFrom false, and a
nonempty candidate over disjoint objects makes it true. -/
theorem cbc_c5_farFrom_witness :
    CbcHeuristicNodeList.farFrom ⟨[some ⟨[(0, 0)]⟩]⟩ ⟨[(0, 0)]⟩ = false ∧
      CbcHeuristicNodeList.farFrom ⟨[some ⟨[(0, 0)]⟩]⟩ ⟨[(1, 0)]⟩ = true :=
  ⟨(cbc_c5_farFrom_reflexive_disjoint ⟨[some ⟨[(0, 0)]⟩]⟩ ⟨[(0, 0)]⟩).1
      (by decide),
    (cbc_c5_farFrom_reflexive_disjoint ⟨[some ⟨[(0, 0)]⟩]⟩ ⟨[(1, 0)]⟩).2
      (by decide) (by decide)⟩

theorem runBB_fst (c : ℚ) :
    ∀ (nodes : List (Option (List ℚ × ℚ))) (b : Nat)
      (best : Option (List ℚ × ℚ)),
      (runBB c nodes b best).1 = true ↔ nodes.length ≤ b := by
  intro nodes
  induction nodes with
  | nil => intro b best; simp [runBB]
  | cons node rest ih =>
    intro b best
    cases b with
    | zero => simp [runBB]
    | succ b =>
      cases node with
      | none => simpa [runBB, Nat.succ_le_succ_iff] using ih b best
      | some xv =>
        cases best with
        | none => simpa [runBB, Nat.succ_le_succ_iff] using ih b _
        | some b0 => simpa [runBB, Nat.succ_le_succ_iff] using ih b _

theorem runBB_isSome (c : ℚ) :
    ∀ (nodes : List (Option (List ℚ × ℚ))) (b : Nat) (p : List ℚ × ℚ),
      ((runBB c nodes b (some p)).2).isSome = true := by
  intro nodes
  induction nodes with
  | nil => intro b p; simp [runBB]
  | cons node rest ih =>
    intro b p
    cases b with
    | zero => simp [runBB]
    | succ b =>
      cases node with
      | none => simpa [runBB] using ih b p
      | some xv =>
        by_cases hlt : xv.2 < p.2
        · simpa [runBB, hlt] using ih b xv
        · simpa [runBB, hlt] using ih b p

theorem runBB_mem (c : ℚ) :
    ∀ (nodes : List (Option (List ℚ × ℚ))) (b : Nat)
      (best : Option (List ℚ × ℚ)) (q : List ℚ × ℚ),
      (runBB c nodes b best).2 = some q → best = some q ∨ some q ∈ nodes := by
  intro nodes
  induction nodes with
  | nil => intro b best q h; simp [runBB] at h; exact Or.inl h
  | cons node rest ih =>
    intro b best q h
    cases b with
    | zero =>
      simp [runBB] at h
      exact Or.inl h
    | succ b =>
      cases node with
      | none =>
        rcases ih b best q (by simpa [runBB] using h) with h1 | h1
        · exact Or.inl h1
        · exact Or.inr (List.mem_cons_of_mem _ h1)
      | some xv =>
        cases best with
        | none =>
          by_cases hlt : xv.2 < c
          · rcases ih b (some xv) q (by simpa [runBB, hlt] using h) with h1 | h1
            · exact Or.inr (by simp [h1.symm])
            · exact Or.inr (List.mem_cons_of_mem _ h1)
          · rcases ih b none q (by simpa [runBB, hlt] using h) with h1 | h1
            · exact absurd h1 (by simp)
            · exact Or.inr (List.mem_cons_of_mem _ h1)
        | some b0 =>
          by_cases hlt : xv.2 < b0.2
          · rcases ih b (some xv) q (by simpa [runBB, hlt] using h) with h1 | h1
            · exact Or.inr (by simp [h1.symm])
            · exact Or.inr (List.mem_cons_of_mem _ h1)
          · rcases ih b (some b0) q (by simpa [runBB, hlt] using h) with h1 | h1
            · exact Or.inl h1
            · exact Or.inr (List.mem_cons_of_mem _ h1)

theorem runBB_lt (c : ℚ) :
    ∀ (nodes : List (Option (List ℚ × ℚ))) (b : Nat)
      (best : Option (List ℚ × ℚ)) (q : List ℚ × ℚ),
      (∀ p, best = some p → p.2 < c) →
      (runBB c nodes b best).2 = some q → q.2 < c := by
  intro nodes
  induction nodes with
  | nil =>
    intro b best q hbest h
    simp [runBB] at h
    exact hbest q h
  | cons node rest ih =>
    intro b best q hbest h
    cases b with
    | zero =>
      simp [runBB] at h
      exact hbest q h
    | succ b =>
      cases node with
      | none => exact ih b best q hbest (by simpa [runBB] using h)
      | some xv =>
        cases best with
        | none =>
          by_cases hlt : xv.2 < c
          · refine ih b (some xv) q ?_ (by simpa [runBB, hlt] using h)
            intro p hp
            cases hp
            · simpa using hlt
          · refine ih b none q ?_ (by simpa [runBB, hlt] using h)
            intro p hp
            cases hp
        | some b0 =>
          have hb0 : b0.2 < c := hbest b0 rfl
          by_cases hlt : xv.2 < b0.2
          · refine ih b (some xv) q ?_ (by simpa [runBB, hlt] using h)
            intro p hp
            cases hp
            exact lt_trans hlt hb0
          · refine ih b (some b0) q ?_ (by simpa [runBB, hlt] using h)
            intro p hp
            cases hp
            exact hb0

theorem runBB_none_iff (c : ℚ) :
    ∀ (nodes : List (Option (List ℚ × ℚ))) (b : Nat),
      ((runBB c nodes b none).2 = none) ↔
        (∀ x v, some (x, v) ∈ nodes.take b → ¬ v < c) := by
  intro nodes
  induction nodes with
  | nil => intro b; simp [runBB]
  | cons node rest ih =>
    intro b
    cases b with
    | zero => simp [runBB]
    | succ b =>
      cases node with
      | none =>
        simpa [runBB] using ih b
      | some xv =>
        by_cases hlt : xv.2 < c
        · constructor
          · intro h
            exfalso
            have := runBB_isSome c rest b xv
            rw [show runBB c (some xv :: rest) (b+1) none
                = runBB c rest b (some xv) by simp [runBB, hlt]] at h
            simp [h] at this
          · intro h
            exfalso
            exact h xv.1 xv.2 (by simp) hlt
        · rw [show runBB c (some xv :: rest) (b+1) none
              = runBB c rest b none by simp [runBB, hlt]]
          rw [ih b]
          constructor
          · intro h x v hmem
            rcases List.mem_cons.mp hmem with heq | hmem2
            · cases heq; simpa using hlt
            · exact h x v hmem2
          · intro h x v hmem
            exact h x v (List.mem_cons_of_mem _ hmem)

/-- C2: smallBranchAndBound returns one of exactly four values 0..3 (2-bit
status finished x solution); a restricted problem whose tree needs more
than the node budget returns a not-finished status (0 or 1), never
finished; with budget covering the whole tree the status is finished, its
solution bit reflecting whether a solution (beating the cutoff) exists. -/
theorem cbc_c2_smallBranchAndBound_status :
    ∀ (h : CbcHeuristicState) (solver : SubMipSolver) (b : Nat)
      (sol : List ℚ) (val c : ℚ) (lbl : String),
      ((CbcHeuristic.smallBranchAndBound h solver b sol val c lbl).2.1 = 0 ∨
        (CbcHeuristic.smallBranchAndBound h solver b sol val c lbl).2.1 = 1 ∨
        (CbcHeuristic.smallBranchAndBound h solver b sol val c lbl).2.1 = 2 ∨
        (CbcHeuristic.smallBranchAndBound h solver b sol val c lbl).2.1 = 3) ∧
      (b < solver.nodes.length →
        ((CbcHeuristic.smallBranchAndBound h solver b sol val c lbl).2.1 = 0 ∨
          (CbcHeuristic.smallBranchAndBound h solver b sol val c lbl).2.1
            = 1)) ∧
      (solver.nodes.length ≤ b →
        (((CbcHeuristic.smallBranchAndBound h solver b sol val c lbl).2.1 = 2 ∨
          (CbcHeuristic.smallBranchAndBound h solver b sol val c lbl).2.1
            = 3) ∧
          ((CbcHeuristic.smallBranchAndBound h solver b sol val c lbl).2.1 = 3
            ↔ ∃ x v, some (x, v) ∈ solver.nodes ∧ v < c))) := by
  intro h solver b sol val c lbl
  rcases hr : runBB c solver.nodes b none with ⟨fin, best⟩
  have hiff := runBB_fst c solver.nodes b none
  rw [hr] at hiff
  refine ⟨?_, ?_, ?_⟩
  · cases best <;> cases fin <;>
      simp [CbcHeuristic.smallBranchAndBound, hr]
  · intro hgt
    have hfin : fin = false := by
      cases fin with
      | false => rfl
      | true => exact absurd (hiff.mp rfl) (by omega)
    cases best <;> simp [CbcHeuristic.smallBranchAndBound, hr, hfin]
  · intro hle
    have hfin : fin = true := hiff.mpr hle
    refine ⟨?_, ?_, ?_⟩
    · cases best <;> simp [CbcHeuristic.smallBranchAndBound, hr, hfin]
    · intro h3
      cases best with
      | none =>
        exfalso
        simp [CbcHeuristic.smallBranchAndBound, hr, hfin] at h3
      | some q =>
        have hmem := runBB_mem c solver.nodes b none q (by rw [hr])
        have hlt := runBB_lt c solver.nodes b none q
          (by intro p hp; cases hp) (by rw [hr])
        rcases hmem with h0 | h0
        · exact absurd h0 (by simp)
        · exact ⟨q.1, q.2, by simpa using h0, hlt⟩
    · intro hex
      rcases hex with ⟨x, v, hmem, hvlt⟩
      cases best with
      | some q => simp [CbcHeuristic.smallBranchAndBound, hr, hfin]
      | none =>
        exfalso
        have hni := (runBB_none_iff c solver.nodes b).mp (by rw [hr])
        have hmem2 : some (x, v) ∈ solver.nodes.take b := by
          rw [List.take_of_length_le hle]
          exact hmem
        exact hni x v hmem2 hvlt

/-- C2 witness: with a budget covering the one-node tree exposing a point
beating the cutoff, the status is 3 (finished, solution). -/
theorem cbc_c2_smallBranchAndBound_status_witness :
    (CbcHeuristic.smallBranchAndBound hW ⟨[some ([1], 0)]⟩ 2 [] 5 1
      "sub").2.1 = 3 :=
  ((cbc_c2_smallBranchAndBound_status hW ⟨[some ([1], 0)]⟩ 2 [] 5 1
      "sub").2.2 (by decide)).2.mpr ⟨[1], 0, by decide, by decide⟩

/-- C8: smallBranchAndBound leaves the heuristic state untouched (const
method), leaves the output parameters untouched exactly when the returned
status has no solution bit (0 or 2), writes a candidate of the search tree
beating the cutoff when the solution bit is set (1 or 3), and on an
infeasible restriction (no tree node yields a point) performs no write. -/
theorem cbc_c8_smallBranchAndBound_frame :
    ∀ (h : CbcHeuristicState) (solver : SubMipSolver) (b : Nat)
      (sol : List ℚ) (val c : ℚ) (lbl : String),
      ((CbcHeuristic.smallBranchAndBound h solver b sol val c lbl).1 = h) ∧
      (((CbcHeuristic.smallBranchAndBound h solver b sol val c lbl).2.1 = 0 ∨
        (CbcHeuristic.smallBranchAndBound h solver b sol val c lbl).2.1 = 2) →
        (CbcHeuristic.smallBranchAndBound h solver b sol val c lbl).2.2.1
            = sol ∧
          (CbcHeuristic.smallBranchAndBound h solver b sol val c
            lbl).2.2.2 = val) ∧
      (((CbcHeuristic.smallBranchAndBound h solver b sol val c lbl).2.1 = 1 ∨
        (CbcHeuristic.smallBranchAndBound h solver b sol val c lbl).2.1 = 3) →
        ∃ x v, some (x, v) ∈ solver.nodes ∧ v < c ∧
          (CbcHeuristic.smallBranchAndBound h solver b sol val c lbl).2.2.1
            = x ∧
          (CbcHeuristic.smallBranchAndBound h solver b sol val c
            lbl).2.2.2 = v) ∧
      ((∀ e ∈ solver.nodes, e = none) →
        ((CbcHeuristic.smallBranchAndBound h solver b sol val c lbl).2.1 = 0 ∨
          (CbcHeuristic.smallBranchAndBound h solver b sol val c lbl).2.1
            = 2) ∧
          (CbcHeuristic.smallBranchAndBound h solver b sol val c lbl).2.2.1
            = sol ∧
          (CbcHeuristic.smallBranchAndBound h solver b sol val c
            lbl).2.2.2 = val) := by
  intro h solver b sol val c lbl
  rcases hr : runBB c solver.nodes b none with ⟨fin, best⟩
  refine ⟨?_, ?_, ?_, ?_⟩
  · cases best <;> cases fin <;>
      simp [CbcHeuristic.smallBranchAndBound, hr]
  · intro h02
    cases best with
    | none => cases fin <;> simp [CbcHeuristic.smallBranchAndBound, hr]
    | some q =>
      exfalso
      cases fin <;>
        simp [CbcHeuristic.smallBranchAndBound, hr] at h02
  · intro h13
    cases best with
    | none =>
      exfalso
      cases fin <;>
        simp [CbcHeuristic.smallBranchAndBound, hr] at h13
    | some q =>
      have hmem := runBB_mem c solver.nodes b none q (by rw [hr])
      have hlt := runBB_lt c solver.nodes b none q
        (by intro p hp; cases hp) (by rw [hr])
      rcases hmem with h0 | h0
      · exact absurd h0 (by simp)
      · refine ⟨q.1, q.2, by simpa using h0, hlt, ?_, ?_⟩ <;>
          cases fin <;> simp [CbcHeuristic.smallBranchAndBound, hr]
  · intro hall
    cases best with
    | some q =>
      exfalso
      have hmem := runBB_mem c solver.nodes b none q (by rw [hr])
      rcases hmem with h0 | h0
      · exact absurd h0 (by simp)
      · exact absurd (hall _ h0) (by simp)
    | none =>
      cases fin <;> simp [CbcHeuristic.smallBranchAndBound, hr]

/-- C8 witness: on a restriction whose only tree node yields no point, the
heuristic state and both outputs are returned untouched. -/
theorem cbc_c8_smallBranchAndBound_frame_witness :
    (CbcHeuristic.smallBranchAndBound hW ⟨[none]⟩ 1 [] 7 3 "sub").1 = hW ∧
      (CbcHeuristic.smallBranchAndBound hW ⟨[none]⟩ 1 [] 7 3
        "sub").2.2.1 = [] ∧
      (CbcHeuristic.smallBranchAndBound hW ⟨[none]⟩ 1 [] 7 3
        "sub").2.2.2 = 7 :=
  ⟨(cbc_c8_smallBranchAndBound_frame hW ⟨[none]⟩ 1 [] 7 3 "sub").1,
    ((cbc_c8_smallBranchAndBound_frame hW ⟨[none]⟩ 1 [] 7 3 "sub").2.2.2
      (by decide)).2⟩

theorem roundDir_ratIsInt (d u e : Bool) (r v : ℚ) :
    ratIsInt (roundDir d u e r v) = true := by
  have hcast : ∀ k : ℤ, ratIsInt ((k : ℤ) : ℚ) = true := by
    intro k
    simp [ratIsInt]
  by_cases h1 : ratIsInt v = true
  · simp [roundDir, h1]
  · rw [roundDir, if_neg (by simpa using h1)]
    repeat' split
    all_goals exact hcast _

theorem doRound_integralOk (st : CbcRoundingState) (p : Mip)
    (xrel : List ℚ) :
    p.integralOkB (CbcRounding.doRound st p xrel) = true := by
  apply List.all_eq_true.mpr
  intro j hj
  have hj' : j < p.numCols := List.mem_range.mp hj
  have hval : (CbcRounding.doRound st p xrel).getD j 0 =
      (if p.isInteger.getD j false then
        roundDir (st.down.getD j false) (st.up.getD j false)
          (st.equal.getD j false) (st.randStream j) (xrel.getD j 0)
      else xrel.getD j 0) :=
    getD_map_range _ _ hj'
  show (!(p.isInteger.getD j false) ||
    ratIsInt ((CbcRounding.doRound st p xrel).getD j 0)) = true
  rw [Bool.or_eq_true]
  cases hint : p.isInteger.getD j false with
  | false => exact Or.inl rfl
  | true =>
    refine Or.inr ?_
    rw [hval, if_pos hint]
    exact roundDir_ratIsInt _ _ _ _ _

theorem rounding_contract (st : CbcRoundingState) (p : Mip) (xrel : List ℚ)
    (obj : ℚ) (sol : List ℚ) :
    meetsSolutionContract p obj sol
      (CbcRounding.solution st p xrel obj sol) := by
  by_cases hcond : (p.rowsOkB (CbcRounding.doRound st p xrel) &&
      decide (p.objValue (CbcRounding.doRound st p xrel) < obj)) = true
  · have hres : CbcRounding.solution st p xrel obj sol =
        (1, p.objValue (CbcRounding.doRound st p xrel),
          CbcRounding.doRound st p xrel) := by
      simp only [CbcRounding.solution]
      rw [if_pos hcond]
    have hcond2 : p.rowsOkB (CbcRounding.doRound st p xrel) = true ∧
        p.objValue (CbcRounding.doRound st p xrel) < obj := by
      simpa using hcond
    obtain ⟨hrows, hobj⟩ := hcond2
    rw [meetsSolutionContract, hres]
    refine ⟨Or.inr rfl, ?_, ?_⟩
    · intro h0
      exact absurd h0 (by simp)
    · intro _
      refine ⟨?_, rfl, by simpa using hobj⟩
      simp [Mip.feasibleB, hrows, doRound_integralOk]
  · have hres : CbcRounding.solution st p xrel obj sol = (0, obj, sol) := by
      simp only [CbcRounding.solution]
      rw [if_neg hcond]
    rw [meetsSolutionContract, hres]
    exact ⟨Or.inl rfl, fun _ => ⟨rfl, rfl⟩, fun h1 => absurd h1 (by simp)⟩

theorem partial_contract (h : CbcHeuristicState) (fp : Int) (p : Mip)
    (priorities : List Int) (xrel : List ℚ)
    (mkSolver : List ℚ → List ℚ → SubMipSolver) (obj : ℚ) (sol : List ℚ)
    (hfeas : ∀ lb ub x v, some (x, v) ∈ (mkSolver lb ub).nodes →
      p.feasibleB x = true ∧ v = p.objValue x) :
    meetsSolutionContract p obj sol
      (CbcHeuristicPartial.solution h fp p priorities xrel mkSolver obj
        sol) := by
  rcases hr : runBB obj (mkSolver
      (fixVariables fp priorities p.isInteger xrel p.colLower p.colUpper
        p.numCols).1
      (fixVariables fp priorities p.isInteger xrel p.colLower p.colUpper
        p.numCols).2).nodes h.numberNodes_ none with ⟨fin, best⟩
  cases best with
  | none =>
    have hres : CbcHeuristicPartial.solution h fp p priorities xrel mkSolver
        obj sol = (0, obj, sol) := by
      cases fin <;>
        simp [CbcHeuristicPartial.solution,
          CbcHeuristic.smallBranchAndBound, hr]
    rw [meetsSolutionContract, hres]
    exact ⟨Or.inl rfl, fun _ => ⟨rfl, rfl⟩, fun h1 => absurd h1 (by simp)⟩
  | some q =>
    have hres : CbcHeuristicPartial.solution h fp p priorities xrel mkSolver
        obj sol = (1, q.2, q.1) := by
      cases fin <;>
        simp [CbcHeuristicPartial.solution,
          CbcHeuristic.smallBranchAndBound, hr]
    have hmem := runBB_mem obj _ _ none q (by rw [hr])
    have hlt := runBB_lt obj _ _ none q (by intro pp hpp; cases hpp)
      (by rw [hr])
    rcases hmem with h0 | h0
    · exact absurd h0 (by simp)
    · obtain ⟨hfeasq, hvq⟩ := hfeas _ _ q.1 q.2 (by simpa using h0)
      rw [meetsSolutionContract, hres]
      refine ⟨Or.inr rfl, ?_, ?_⟩
      · intro h0'
        exact absurd h0' (by simp)
      · intro _
        exact ⟨hfeasq, hvq, hlt⟩

theorem serendipity_contract (st : CbcHeuristicState) (m : CbcModelState)
    (p : Mip) (obj : ℚ) (sol : List ℚ)
    (hfeas : ∀ x v, m.sideChannel = some (x, v) →
      p.feasibleB x = true ∧ v = p.objValue x) :
    meetsSolutionContract p obj sol
      (CbcSerendipity.solution st m obj sol) := by
  cases hm : m.sideChannel with
  | none =>
    have hres : CbcSerendipity.solution st m obj sol = (0, obj, sol) := by
      simp [CbcSerendipity.solution, hm]
    rw [meetsSolutionContract, hres]
    exact ⟨Or.inl rfl, fun _ => ⟨rfl, rfl⟩, fun h1 => absurd h1 (by simp)⟩
  | some xv =>
    by_cases hlt : xv.2 < obj
    · have hres : CbcSerendipity.solution st m obj sol =
          (1, xv.2, xv.1) := by
        simp [CbcSerendipity.solution, hm, hlt]
      obtain ⟨hfeasx, hvx⟩ := hfeas xv.1 xv.2 (by simpa using hm)
      rw [meetsSolutionContract, hres]
      refine ⟨Or.inr rfl, ?_, ?_⟩
      · intro h0
        exact absurd h0 (by simp)
      · intro _
        exact ⟨hfeasx, hvx, hlt⟩
    · have hres : CbcSerendipity.solution st m obj sol = (0, obj, sol) := by
        simp [CbcSerendipity.solution, hm, hlt]
      rw [meetsSolutionContract, hres]
      exact ⟨Or.inl rfl, fun _ => ⟨rfl, rfl⟩, fun h1 => absurd h1 (by simp)⟩

theorem pW_feasible_zero : pW.feasibleB [0] = true := by
  norm_num [pW, Mip.feasibleB, Mip.rowsOkB, MipRow.satisfiedB,
    MipRow.activity, Mip.integralOkB, ratIsInt]

theorem pW_objValue_zero : pW.objValue [0] = 0 := by
  norm_num [pW, Mip.objValue]

theorem mkW_nodes_good : ∀ (lb ub : List ℚ) (x : List ℚ) (v : ℚ),
    some (x, v) ∈ (mkW lb ub).nodes →
    pW.feasibleB x = true ∧ v = pW.objValue x := by
  intro lb ub x v hmem
  simp [mkW] at hmem
  obtain ⟨hx, hv⟩ := hmem
  subst hx
  subst hv
  exact ⟨pW_feasible_zero, pW_objValue_zero.symm⟩

theorem mSideW_good : ∀ (x : List ℚ) (v : ℚ),
    mSideW.sideChannel = some (x, v) →
    pW.feasibleB x = true ∧ v = pW.objValue x := by
  intro x v hmem
  simp [mSideW] at hmem
  obtain ⟨hx, hv⟩ := hmem
  subst hx
  subst hv
  exact ⟨pW_feasible_zero, pW_objValue_zero.symm⟩

/-- C6: CbcRounding.solution reports IMPROVED (1) only if the fully rounded
point satisfies every constraint row of the model (full re-validation);
whenever some row is violated by the rounded point it returns NO_SOLUTION
(0). -/
theorem cbc_c6_rounding_revalidates :
    ∀ (st : CbcRoundingState) (p : Mip) (xrel : List ℚ) (obj : ℚ)
      (sol : List ℚ),
      ((CbcRounding.solution st p xrel obj sol).1 = 1 →
        ∀ r ∈ p.rows,
          r.satisfiedB (CbcRounding.doRound st p xrel) = true) ∧
      ((∃ r ∈ p.rows,
          r.satisfiedB (CbcRounding.doRound st p xrel) = false) →
        (CbcRounding.solution st p xrel obj sol).1 = 0) := by
  intro st p xrel obj sol
  by_cases hrows : p.rowsOkB (CbcRounding.doRound st p xrel) = true
  · constructor
    · intro _ r hr
      exact List.all_eq_true.mp hrows r hr
    · intro hex
      rcases hex with ⟨r, hr, hviol⟩
      have := List.all_eq_true.mp hrows r hr
      rw [this] at hviol
      exact absurd hviol (by simp)
  · have hrows' : p.rowsOkB (CbcRounding.doRound st p xrel) = false := by
      simpa using hrows
    have hres : (CbcRounding.solution st p xrel obj sol).1 = 0 := by
      simp only [CbcRounding.solution]
      rw [if_neg (by simp [hrows'])]
    constructor
    · intro h1
      rw [hres] at h1
      exact absurd h1 (by decide)
    · intro _
      exact hres

/-- C6 witness: on the one-column sample problem with relaxation value 0
the rounded point is accepted (code 1), and the constraint row indeed
holds at the rounded point. -/
theorem cbc_c6_rounding_revalidates_witness :
    MipRow.satisfiedB ⟨[(0, 1)], 0, 1⟩ (CbcRounding.doRound stW pW [0])
      = true := by
  have h1 : (CbcRounding.solution stW pW [0] 5 []).1 = 1 := by
    norm_num [CbcRounding.solution, CbcRounding.doRound, roundDir, ratIsInt,
      Mip.rowsOkB, MipRow.satisfiedB, MipRow.activity, Mip.objValue, stW, pW]
  exact (cbc_c6_rounding_revalidates stW pW [0] 5 []).1 h1
    ⟨[(0, 1)], 0, 1⟩ (by simp [pW])

/-- C7: CbcSerendipity.solution is search-free and deterministic: its
result is independent of the heuristic's own state (in particular of the
random seed), and it merely adopts verbatim the solver's already-found
point when that point beats the incoming bound, reporting IMPROVED, and
otherwise touches nothing, reporting NO_SOLUTION. -/
theorem cbc_c7_serendipity_deterministic :
    ∀ (st1 st2 : CbcHeuristicState) (m : CbcModelState) (obj : ℚ)
      (sol : List ℚ),
      (CbcSerendipity.solution st1 m obj sol
          = CbcSerendipity.solution st2 m obj sol) ∧
      (∀ x v, m.sideChannel = some (x, v) → v < obj →
        CbcSerendipity.solution st1 m obj sol = (1, v, x)) ∧
      (∀ x v, m.sideChannel = some (x, v) → ¬v < obj →
        CbcSerendipity.solution st1 m obj sol = (0, obj, sol)) ∧
      (m.sideChannel = none →
        CbcSerendipity.solution st1 m obj sol = (0, obj, sol)) := by
  intro st1 st2 m obj sol
  refine ⟨rfl, ?_, ?_, ?_⟩
  · intro x v hm hlt
    simp [CbcSerendipity.solution, hm, hlt]
  · intro x v hm hlt
    simp [CbcSerendipity.solution, hm, hlt]
  · intro hm
    simp [CbcSerendipity.solution, hm]

/-- C7 witness: the sample side-channel point of value 0 beats the bound 1
and is adopted verbatim. -/
theorem cbc_c7_serendipity_deterministic_witness :
    CbcSerendipity.solution hW mSideW 1 [] = (1, 0, [0]) :=
  (cbc_c7_serendipity_deterministic hW hW mSideW 1 []).2.1 [0] 0 rfl
    (by decide)

/-- C9: the fixing pass of CbcHeuristicPartial fixes exactly the integer
columns whose absolute branching priority is at most fixPriority to their
relaxation value rounded to nearest (both bounds set to that value), and
leaves the bounds of every other column unchanged; with the default
threshold 10000 every integer column of priority magnitude at most 10000
is fixed. -/
theorem cbc_c9_partial_fixes_by_priority :
    ∀ (fp : Int) (priorities : List Int) (isInt : List Bool)
      (xrel lb ub : List ℚ) (n j : Nat), j < n →
      ((isInt.getD j false = true ∧ |priorities.getD j 0| ≤ fp) →
        (fixVariables fp priorities isInt xrel lb ub n).1.getD j 0
            = ((rndNearest (xrel.getD j 0) : ℤ) : ℚ) ∧
          (fixVariables fp priorities isInt xrel lb ub n).2.getD j 0
            = ((rndNearest (xrel.getD j 0) : ℤ) : ℚ)) ∧
      ((isInt.getD j false = false ∨ fp < |priorities.getD j 0|) →
        (fixVariables fp priorities isInt xrel lb ub n).1.getD j 0
            = lb.getD j 0 ∧
          (fixVariables fp priorities isInt xrel lb ub n).2.getD j 0
            = ub.getD j 0) ∧
      ((isInt.getD j false = true ∧ |priorities.getD j 0| ≤ 10000) →
        (fixVariables 10000 priorities isInt xrel lb ub n).1.getD j 0
          = (fixVariables 10000 priorities isInt xrel lb ub n).2.getD
            j 0) := by
  intro fp priorities isInt xrel lb ub n j hj
  have h1 : ∀ fp' : Int,
      (fixVariables fp' priorities isInt xrel lb ub n).1.getD j 0 =
      (if isInt.getD j false && decide (|priorities.getD j 0| ≤ fp') then
        ((rndNearest (xrel.getD j 0) : ℤ) : ℚ)
      else lb.getD j 0) :=
    fun fp' => getD_map_range _ _ hj
  have h2 : ∀ fp' : Int,
      (fixVariables fp' priorities isInt xrel lb ub n).2.getD j 0 =
      (if isInt.getD j false && decide (|priorities.getD j 0| ≤ fp') then
        ((rndNearest (xrel.getD j 0) : ℤ) : ℚ)
      else ub.getD j 0) :=
    fun fp' => getD_map_range _ _ hj
  refine ⟨?_, ?_, ?_⟩
  · rintro ⟨hint, hle⟩
    have hcondT : (isInt.getD j false &&
        decide (|priorities.getD j 0| ≤ fp)) = true := by
      rw [hint, decide_eq_true hle]
      rfl
    rw [h1 fp, h2 fp, if_pos hcondT, if_pos hcondT]
    exact ⟨rfl, rfl⟩
  · intro hcase
    have hcondF : (isInt.getD j false &&
        decide (|priorities.getD j 0| ≤ fp)) = false := by
      rcases hcase with hc | hc
      · rw [hc]
        rfl
      · rw [decide_eq_false (not_le.mpr hc), Bool.and_false]
    have hne : ¬((isInt.getD j false &&
        decide (|priorities.getD j 0| ≤ fp)) = true) := by
      intro hcontra
      rw [hcondF] at hcontra
      exact Bool.noConfusion hcontra
    rw [h1 fp, h2 fp, if_neg hne, if_neg hne]
    exact ⟨rfl, rfl⟩
  · rintro ⟨hint, hle⟩
    have hcondT : (isInt.getD j false &&
        decide (|priorities.getD j 0| ≤ (10000 : Int))) = true := by
      rw [hint, decide_eq_true hle]
      rfl
    rw [h1 10000, h2 10000, if_pos hcondT, if_pos hcondT]

/-- C9 witness: a single integer column of priority 3 under threshold 10 is
fixed (both bounds) to its rounded relaxation value. -/
theorem cbc_c9_partial_fixes_by_priority_witness :
    (fixVariables 10 [3] [true] [0] [-5] [5] 1).1.getD 0 0
        = ((rndNearest ((0 : ℚ)) : ℤ) : ℚ) ∧
      (fixVariables 10 [3] [true] [0] [-5] [5] 1).2.getD 0 0
        = ((rndNearest ((0 : ℚ)) : ℤ) : ℚ) :=
  (cbc_c9_partial_fixes_by_priority 10 [3] [true] [0] [-5] [5] 1 0
      (by decide)).1 ⟨by decide, by decide⟩

/-- C1: each modelled heuristic's pre-cut entry point meets the header's
contract: the code is 0 (NO_SOLUTION) or 1 (IMPROVED); on 0 the objective
bound and the solution buffer are untouched; on 1 a feasible integer
solution strictly better than the incoming bound has been written and the
bound updated to its value.  For the partial and serendipity heuristics,
whose candidates come from the external solver, the solver's candidates
are assumed feasible with consistent objective values. -/
theorem cbc_c1_solution_contract :
    (∀ (st : CbcRoundingState) (p : Mip) (xrel : List ℚ) (obj : ℚ)
      (sol : List ℚ),
      meetsSolutionContract p obj sol
        (CbcRounding.solution st p xrel obj sol)) ∧
    (∀ (h : CbcHeuristicState) (fp : Int) (p : Mip) (priorities : List Int)
      (xrel : List ℚ) (mkSolver : List ℚ → List ℚ → SubMipSolver)
      (obj : ℚ) (sol : List ℚ),
      (∀ lb ub x v, some (x, v) ∈ (mkSolver lb ub).nodes →
        p.feasibleB x = true ∧ v = p.objValue x) →
      meetsSolutionContract p obj sol
        (CbcHeuristicPartial.solution h fp p priorities xrel mkSolver obj
          sol)) ∧
    (∀ (st : CbcHeuristicState) (m : CbcModelState) (p : Mip) (obj : ℚ)
      (sol : List ℚ),
      (∀ x v, m.sideChannel = some (x, v) →
        p.feasibleB x = true ∧ v = p.objValue x) →
      meetsSolutionContract p obj sol
        (CbcSerendipity.solution st m obj sol)) :=
  ⟨rounding_contract, partial_contract, serendipity_contract⟩

/-- C1 witness: the contract instantiated for all three heuristics on the
one-column sample problem, the solver-candidate assumptions discharged on
the concrete solver and side channel. -/
theorem cbc_c1_solution_contract_witness :
    meetsSolutionContract pW 1 [] (CbcRounding.solution stW pW [0] 1 []) ∧
      meetsSolutionContract pW 1 []
        (CbcHeuristicPartial.solution hW 10000 pW [3] [0] mkW 1 []) ∧
      meetsSolutionContract pW 1 []
        (CbcSerendipity.solution hW mSideW 1 []) :=
  ⟨cbc_c1_solution_contract.1 stW pW [0] 1 [],
    cbc_c1_solution_contract.2.1 hW 10000 pW [3] [0] mkW 1 [] mkW_nodes_good,
    cbc_c1_solution_contract.2.2 hW mSideW pW 1 [] mSideW_good⟩
